import Mathlib

/-!
# Verification of `autosubmit/config/provenance_tracker.py`

A shallow embedding of the provenance-tracking subsystem: the `ProvEntry`
record (source file, optional line, optional column, timestamp) and the
`ProvenanceTracker` flat index with its nested-dict export/import.

Modelling conventions:
* Python values that flow through the module are modelled by `PyVal`
  (`None`, strings, ints, floats, dicts).  Timestamps are opaque to the
  subsystem — they are produced by `time.time()`, stored and compared but
  never computed with — so the float domain is modelled by `Int` and the
  current wall-clock time is threaded as an explicit `now : Int` argument.
* Python `dict`s are insertion-ordered association lists
  (`List (String × α)`); `aset` mirrors `d[k] = v` (update in place if the
  key exists, append otherwise) and `aget` mirrors `d.get(k)`.
-/

/-- A Python value as it occurs in the provenance subsystem: `None`,
strings, ints, floats (represented opaquely by `Int`, see module comment)
and string-keyed dicts. -/
inductive PyVal where
  | vNone : PyVal
  | vStr : String → PyVal
  | vInt : Int → PyVal
  | vFloat : Int → PyVal
  | vDict : List (String × PyVal) → PyVal

/-- Python's `x is None` test. -/
def PyVal.isNone : PyVal → Bool
  | .vNone => true
  | _ => false

/-- A Python dict with string keys, in insertion order. -/
abbrev PDict := List (String × PyVal)

/-- `d.get(k)` on a Python dict: the value at the first (only) occurrence
of `k`, if any. -/
def aget {α : Type} : List (String × α) → String → Option α
  | [], _ => none
  | (k', v) :: rest, k => if k' = k then some v else aget rest k

/-- `d[k] = v` on a Python dict: replace in place if `k` is present,
append `(k, v)` otherwise. -/
def aset {α : Type} : List (String × α) → String → α → List (String × α)
  | [], k, v => [(k, v)]
  | (k', v') :: rest, k, v =>
    if k' = k then (k, v) :: rest else (k', v') :: aset rest k v

/-- `k in d` on a Python dict. -/
def acontains {α : Type} (d : List (String × α)) (k : String) : Bool :=
  (aget d k).isSome

/-- `data.get(k)` where the absent case yields Python `None`. -/
def pyget (d : PDict) (k : String) : PyVal :=
  (aget d k).getD .vNone

/-- Python `str(x)`.  The tracker only ever applies it to values that are
already strings (`ProvEntry.__init__` does `str(file)`); the remaining
cases abstract Python's rendering and are relied upon by nothing below. -/
def pyToStr : PyVal → String
  | .vNone => "None"
  | .vStr s => s
  | .vInt n => toString n
  | .vFloat t => toString t
  | .vDict _ => "\x7b...\x7d"

/-- `ProvEntry`: provenance for one parameter.  Field types follow the
runtime values: `file` is always a string (`str()` is applied at
construction), `line`/`col` hold whatever was passed (`vNone` when
absent), `timestamp` is never `vNone` for freshly constructed entries
(the constructor defaults it to the current time). -/
structure ProvEntry where
  file : String
  line : PyVal
  col : PyVal
  timestamp : PyVal

/-- `ProvEntry.__init__(file, line=None, col=None, timestamp=None)`:
`self.file = str(file)`, `self.line = line`, `self.col = col`,
`self.timestamp = timestamp if timestamp is not None else time.time()`. -/
def ProvEntry.init (now : Int) (file line col timestamp : PyVal) : ProvEntry :=
  { file := pyToStr file
    line := line
    col := col
    timestamp := if timestamp.isNone then .vFloat now else timestamp }

/-- `ProvEntry.to_dict`: `file` and `timestamp` unconditionally; `line`
and `col` only when not `None`. -/
def ProvEntry.to_dict (e : ProvEntry) : PDict :=
  let result : PDict := [("file", .vStr e.file), ("timestamp", e.timestamp)]
  let result := if e.line.isNone then result else aset result "line" e.line
  if e.col.isNone then result else aset result "col" e.col

/-- `ProvEntry.from_dict`: `KeyError` (modelled as `.error "file"`) when
the required key `file` is absent; otherwise constructs via `__init__`
with `data.get("line")`, `data.get("col")`, `data.get("timestamp")`. -/
def ProvEntry.from_dict (now : Int) (data : PDict) : Except String ProvEntry :=
  match aget data "file" with
  | none => .error "file"
  | some f => .ok (ProvEntry.init now f (pyget data "line") (pyget data "col") (pyget data "timestamp"))

/-- `ProvenanceTracker`: the flat map from dotted parameter path to entry,
in insertion order. -/
structure ProvenanceTracker where
  provenance_map : List (String × ProvEntry)

/-- `ProvenanceTracker()`: the empty tracker. -/
def ProvenanceTracker.new : ProvenanceTracker := ⟨[]⟩

/-- `track(param_path, file, line=None, col=None)`: store a fresh
`ProvEntry(file, line, col)` at `param_path`, overwriting any prior
entry.  The timestamp defaults to the current time `now`. -/
def ProvenanceTracker.track (t : ProvenanceTracker) (now : Int)
    (param_path : String) (file : String) (line col : PyVal) : ProvenanceTracker :=
  ⟨aset t.provenance_map param_path (ProvEntry.init now (.vStr file) line col .vNone)⟩

/-- `get(param_path)`: `self.provenance_map.get(param_path)`. -/
def ProvenanceTracker.get (t : ProvenanceTracker) (param_path : String) : Option ProvEntry :=
  aget t.provenance_map param_path

/-- `clear()`: remove all entries. -/
def ProvenanceTracker.clear (_t : ProvenanceTracker) : ProvenanceTracker :=
  ⟨[]⟩

/-- `param_path in tracker` (`__contains__`). -/
def ProvenanceTracker.holds (t : ProvenanceTracker) (param_path : String) : Bool :=
  acontains t.provenance_map param_path

/-- `len(tracker)` (`__len__`). -/
def ProvenanceTracker.len (t : ProvenanceTracker) : Nat :=
  t.provenance_map.length

/-- The body of `export_to_dict` for one `(path, prov)` item: walk
`keys[:-1]` creating intermediate dicts (`current[key] = {}` when the key
is absent), abandon the insertion (`break`) when an existing intermediate
value is not a dict, and otherwise set `current[keys[-1]]` to the leaf. -/
def insertSegs : PDict → List String → PyVal → PDict
  | d, [], _ => d
  | d, [k], leaf => aset d k leaf
  | d, k :: rest, leaf =>
    match aget d k with
    | none => aset d k (.vDict (insertSegs [] rest leaf))
    | some (.vDict sub) => aset d k (.vDict (insertSegs sub rest leaf))
    | some _ => d

/-- `export_to_dict`: fold the one-item insertion over
`provenance_map.items()` in insertion order, splitting each path on `"."`
and placing `prov.to_dict()` at the nested position. -/
def ProvenanceTracker.export_to_dict (t : ProvenanceTracker) : PDict :=
  t.provenance_map.foldl
    (fun acc pe => insertSegs acc (pe.1.splitOn ".") (.vDict pe.2.to_dict)) []

/-- `import_from_dict(nested_dict, prefix="")`: iterate the items in
order; a dict value containing the key `file` is a leaf recorded (via
`ProvEntry.from_dict`) at the accumulated dotted path, any other dict
value is recursed into, and non-dict values are ignored.  The
`.error` branch is unreachable: `from_dict` only fails when `file` is
absent, and the guard just checked that it is present (in Python the
impossible `KeyError` would propagate). -/
def importDict (now : Int) : List (String × ProvEntry) → PDict → String → List (String × ProvEntry)
  | m, [], _ => m
  | m, (k, .vDict sub) :: rest, pfx =>
    if acontains sub "file" then
      match ProvEntry.from_dict now sub with
      | .ok e => importDict now (aset m (if pfx = "" then k else pfx ++ "." ++ k) e) rest pfx
      | .error _ => importDict now m rest pfx
    else importDict now (importDict now m sub (if pfx = "" then k else pfx ++ "." ++ k)) rest pfx
  | m, _ :: rest, pfx => importDict now m rest pfx

/-- `tracker.import_from_dict(nested_dict, prefix)`. -/
def ProvenanceTracker.import_from_dict (t : ProvenanceTracker) (now : Int)
    (nested_dict : PDict) (pfx : String) : ProvenanceTracker :=
  ⟨importDict now t.provenance_map nested_dict pfx⟩

/-! ## Helpers for claim statements -/

/-- An explicitly present (`vInt`) or absent (`vNone`) integer field, as
passed by a typed caller for `line`/`col`. -/
def optPy : Option Int → PyVal
  | none => .vNone
  | some n => .vInt n

/-- One `track` call's arguments (with its wall-clock time). -/
structure TrackCall where
  now : Int
  path : String
  file : String
  line : PyVal
  col : PyVal

/-- A sequence of `track` calls, applied in order. -/
def trackAll (t : ProvenanceTracker) (recs : List TrackCall) : ProvenanceTracker :=
  recs.foldl (fun t r => t.track r.now r.path r.file r.line r.col) t

/-- The dotted paths at which `import_from_dict` records an entry, in the
order the recursion visits them (mirrors `importDict`). -/
def importPaths : PDict → String → List String
  | [], _ => []
  | (k, .vDict sub) :: rest, pfx =>
    (if acontains sub "file" then [if pfx = "" then k else pfx ++ "." ++ k]
     else importPaths sub (if pfx = "" then k else pfx ++ "." ++ k)) ++ importPaths rest pfx
  | _ :: rest, pfx => importPaths rest pfx

/-! ## Infrastructure for the export/import round trip (C2) -/

/-- One step of the dotted-path accumulation the import performs:
`f"{prefix}.{key}" if prefix else key`. -/
def joinKey (pfx k : String) : String :=
  if pfx = "" then k else pfx ++ "." ++ k

/-- The dotted path the import accumulates along a list of segments. -/
def joinSegs (pfx : String) (l : List String) : String :=
  l.foldl joinKey pfx

/-- The leaves of a nested tree, as (relative segment list, leaf dict)
pairs, in the order the import's recursion visits them. -/
def leavesS : PDict → List (List String × PDict)
  | [] => []
  | (k, .vDict sub) :: rest =>
    (if acontains sub "file" then [([k], sub)]
     else (leavesS sub).map (fun pr => (k :: pr.1, pr.2))) ++ leavesS rest
  | _ :: rest => leavesS rest

/-- The entry `from_dict` builds from a leaf dict that contains `file`. -/
def entryOfLeaf (now : Int) (sub : PDict) : ProvEntry :=
  ProvEntry.init now ((aget sub "file").getD .vNone)
    (pyget sub "line") (pyget sub "col") (pyget sub "timestamp")

/-- Fold a list of (key, value) records into a dict by repeated `aset`. -/
def foldAset {α : Type} (m : List (String × α)) (l : List (String × α)) : List (String × α) :=
  l.foldl (fun acc pr => aset acc pr.1 pr.2) m

/-- Well-formed export trees: every value is a dict, and every
intermediate (non-leaf) dict is recursively well formed.  A node is a
leaf exactly when it contains the key `file`. -/
inductive WFtrie : PDict → Prop where
  | nil : WFtrie []
  | consLeaf {k : String} {sub rest : PDict} :
      acontains sub "file" = true → WFtrie rest → WFtrie ((k, .vDict sub) :: rest)
  | consNode {k : String} {sub rest : PDict} :
      acontains sub "file" = false → WFtrie sub → WFtrie rest →
      WFtrie ((k, .vDict sub) :: rest)

/-- A value that may be stored in a well-formed tree. -/
def GoodVal (v : PyVal) : Prop :=
  ∃ sub, v = .vDict sub ∧
    (acontains sub "file" = true ∨ (acontains sub "file" = false ∧ WFtrie sub))

unseal String.splitOnAux

set_option maxRecDepth 8000

/-! ## Basic association-list lemmas -/

theorem aget_aset_self {α : Type} (m : List (String × α)) (k : String) (v : α) :
    aget (aset m k v) k = some v := by
  induction m with
  | nil => simp [aset, aget]
  | cons h rest ih =>
    obtain ⟨k', v'⟩ := h
    by_cases hk : k' = k <;> simp [aset, hk, aget, ih]

theorem aget_aset_ne {α : Type} (m : List (String × α)) (k k' : String) (v : α)
    (h : k' ≠ k) : aget (aset m k v) k' = aget m k' := by
  induction m with
  | nil => simp [aset, aget, Ne.symm h]
  | cons hd rest ih =>
    obtain ⟨k₀, v₀⟩ := hd
    by_cases hk : k₀ = k
    · subst hk
      simp [aset, aget, Ne.symm h]
    · by_cases hk' : k₀ = k'
      · subst hk'
        simp [aset, h, aget, ih]
      · simp [aset, hk, aget, hk', ih]

theorem acontains_aset {α : Type} (m : List (String × α)) (k x : String) (v : α) :
    acontains (aset m k v) x = true ↔ x = k ∨ acontains m x = true := by
  by_cases hx : x = k
  · subst hx
    simp [acontains, aget_aset_self]
  · simp [acontains, aget_aset_ne m k x v hx, hx]

theorem length_aset_of_mem {α : Type} (m : List (String × α)) (k : String) (v : α)
    (h : acontains m k = true) : (aset m k v).length = m.length := by
  induction m with
  | nil => simp [acontains, aget] at h
  | cons hd rest ih =>
    obtain ⟨k₀, v₀⟩ := hd
    by_cases hk : k₀ = k
    · simp [aset, hk]
    · simp only [acontains, aget, hk, if_false] at h
      simp [aset, hk, ih h]

theorem length_aset_of_new {α : Type} (m : List (String × α)) (k : String) (v : α)
    (h : acontains m k = false) : (aset m k v).length = m.length + 1 := by
  induction m with
  | nil => simp [aset]
  | cons hd rest ih =>
    obtain ⟨k₀, v₀⟩ := hd
    by_cases hk : k₀ = k
    · simp [acontains, aget, hk] at h
    · simp only [acontains, aget, hk, if_false] at h
      simp [aset, hk, ih h]

theorem aget_of_not_acontains {α : Type} (m : List (String × α)) (k : String)
    (h : acontains m k = false) : aget m k = none := by
  cases hm : aget m k with
  | none => rfl
  | some v => simp [acontains, hm] at h

theorem PyVal.isNone_eq_false_iff (v : PyVal) : v.isNone = false ↔ v ≠ .vNone := by
  cases v <;> simp [PyVal.isNone]

/-! ## Claim theorems: the entry (C3, C4, C5, C8) -/

/-- **C3**  For every `ProvEntry` constructed with an explicit file, an
explicit timestamp, and any combination of present/absent line and
column, `ProvEntry.from_dict` of `ProvEntry.to_dict` reproduces the
entry exactly (file, line, col, timestamp), absent line/col staying
absent. -/
theorem entry_roundtrip (now0 now : Int) (f : String) (l c : Option Int) (ts : Int) :
    ProvEntry.from_dict now (ProvEntry.init now0 (.vStr f) (optPy l) (optPy c) (.vFloat ts)).to_dict
      = .ok (ProvEntry.init now0 (.vStr f) (optPy l) (optPy c) (.vFloat ts)) := by
  cases l <;> cases c <;>
    simp [ProvEntry.init, ProvEntry.to_dict, ProvEntry.from_dict, optPy, pyget, pyToStr,
          aget, aset, acontains, PyVal.isNone]

/-- **C4 (counterexample)**  Deserializing a mapping with a `file` key but
no `timestamp` key does *not* yield an entry with an absent timestamp:
at wall-clock time `777`, `from_dict` produces an entry stamped with the
current time `777` (the shared constructor re-stamps a missing
timestamp), and no entry with an absent (`None`) timestamp results. -/
theorem from_dict_missing_timestamp_restamped :
    (ProvEntry.from_dict 777 [("file", PyVal.vStr "/a.yml")]
        = .ok { file := "/a.yml", line := .vNone, col := .vNone, timestamp := .vFloat 777 })
    ∧ ¬ (∃ e, ProvEntry.from_dict 777 [("file", PyVal.vStr "/a.yml")] = .ok e
            ∧ e.timestamp = .vNone) := by
  refine ⟨rfl, ?_⟩
  rintro ⟨e, he, ht⟩
  rw [show ProvEntry.from_dict 777 [("file", PyVal.vStr "/a.yml")]
        = .ok { file := "/a.yml", line := .vNone, col := .vNone, timestamp := .vFloat 777 } from rfl] at he
  cases he
  cases ht

/-- **C4 (amended)**  For every input mapping that contains a `file` key
but no `timestamp` key, `from_dict` produces an entry whose timestamp is
the current wall-clock time at deserialization (`__init__` re-stamps a
missing timestamp to `now`). -/
theorem from_dict_missing_timestamp (now : Int) (d : PDict) (f : PyVal)
    (hf : aget d "file" = some f) (ht : aget d "timestamp" = none) :
    ∃ e, ProvEntry.from_dict now d = .ok e ∧ e.timestamp = .vFloat now := by
  refine ⟨_, by rw [ProvEntry.from_dict, hf], ?_⟩
  simp [ProvEntry.init, pyget, ht, PyVal.isNone]

/-- Witness for `from_dict_missing_timestamp` at
`d = [("file", vStr "/a.yml"), ("line", vInt 3)]`, `now = 42`. -/
theorem from_dict_missing_timestamp_witness :
    ∃ e, ProvEntry.from_dict 42 [("file", PyVal.vStr "/a.yml"), ("line", PyVal.vInt 3)] = .ok e
       ∧ e.timestamp = .vFloat 42 :=
  from_dict_missing_timestamp 42 [("file", PyVal.vStr "/a.yml"), ("line", PyVal.vInt 3)]
    (.vStr "/a.yml") rfl rfl

/-- **C5**  For every input mapping lacking the `file` key,
`ProvEntry.from_dict` fails with the missing-key error for `"file"`
(propagated to the caller; every other operation of the subsystem is a
total function). -/
theorem from_dict_missing_file (now : Int) (d : PDict)
    (h : aget d "file" = none) :
    ProvEntry.from_dict now d = .error "file" := by
  rw [ProvEntry.from_dict, h]

/-- Witness for `from_dict_missing_file` at the spec's example
`{"line": 5}`. -/
theorem from_dict_missing_file_witness :
    ProvEntry.from_dict 5 [("line", PyVal.vInt 5)] = .error "file" :=
  from_dict_missing_file 5 [("line", PyVal.vInt 5)] rfl

theorem PyVal.isNone_eq_true_iff (v : PyVal) : v.isNone = true ↔ v = .vNone := by
  cases v <;> simp [PyVal.isNone]

/-- **C8**  For every `ProvEntry`, `to_dict` contains `file` and
`timestamp` unconditionally, contains `line` iff `line` is present, and
`col` iff `col` is present; an absent `line`/`col` never appears as an
explicit `None` value. -/
theorem to_dict_keys (e : ProvEntry) :
    acontains e.to_dict "file" = true
  ∧ acontains e.to_dict "timestamp" = true
  ∧ (acontains e.to_dict "line" = true ↔ e.line ≠ .vNone)
  ∧ (acontains e.to_dict "col" = true ↔ e.col ≠ .vNone)
  ∧ aget e.to_dict "line" ≠ some PyVal.vNone
  ∧ aget e.to_dict "col" ≠ some PyVal.vNone := by
  rcases hl : e.line.isNone with _ | _ <;> rcases hc : e.col.isNone with _ | _ <;>
    simp [ProvEntry.to_dict, hl, hc, aset, aget, acontains,
          ← PyVal.isNone_eq_false_iff, ← PyVal.isNone_eq_true_iff]

/-! ## Claim theorems: the tracker index (C6, C7, C9) -/

/-- **C6**  For every path and every two successive `track` calls on that
path with different source files, a subsequent `get` of the path returns
exactly the entry built from the second call alone (whose `file` is the
second call's file): the first entry is replaced wholesale, no field of
it survives. -/
theorem track_last_wins (t : ProvenanceTracker) (now1 now2 : Int)
    (p f1 f2 : String) (l1 c1 l2 c2 : PyVal) (hne : f1 ≠ f2) :
    ((t.track now1 p f1 l1 c1).track now2 p f2 l2 c2).get p
        = some (ProvEntry.init now2 (.vStr f2) l2 c2 .vNone)
    ∧ (ProvEntry.init now2 (.vStr f2) l2 c2 .vNone).file = f2 := by
  exact ⟨aget_aset_self _ p _, rfl⟩

/-- Witness for `track_last_wins`: the spec's override scenario,
`DEFAULT.OVERRIDE_TEST` recorded from `/first.yml` then `/second.yml`. -/
theorem track_last_wins_witness :
    ((ProvenanceTracker.new.track 1 "DEFAULT.OVERRIDE_TEST" "/first.yml" .vNone .vNone).track 2
        "DEFAULT.OVERRIDE_TEST" "/second.yml" .vNone .vNone).get "DEFAULT.OVERRIDE_TEST"
        = some (ProvEntry.init 2 (.vStr "/second.yml") .vNone .vNone .vNone)
    ∧ (ProvEntry.init 2 (.vStr "/second.yml") .vNone .vNone .vNone).file = "/second.yml" :=
  track_last_wins ProvenanceTracker.new 1 2 "DEFAULT.OVERRIDE_TEST" "/first.yml" "/second.yml"
    .vNone .vNone .vNone .vNone (by decide)

theorem holds_track (t : ProvenanceTracker) (now : Int) (p f : String) (l c : PyVal)
    (q : String) : (t.track now p f l c).holds q = true ↔ q = p ∨ t.holds q = true := by
  simpa [ProvenanceTracker.track, ProvenanceTracker.holds] using
    acontains_aset t.provenance_map p q (ProvEntry.init now (.vStr f) l c .vNone)

theorem trackAll_len_of_fresh (recs : List TrackCall) :
    ∀ t : ProvenanceTracker, (recs.map TrackCall.path).Nodup →
      (∀ r ∈ recs, t.holds r.path = false) →
      (trackAll t recs).len = t.len + recs.length := by
  induction recs with
  | nil => intro t _ _; simp [trackAll]
  | cons r rest ih =>
    intro t hnd hfresh
    simp only [List.map_cons, List.nodup_cons] at hnd
    have hstep : (t.track r.now r.path r.file r.line r.col).len = t.len + 1 :=
      length_aset_of_new t.provenance_map r.path _ (hfresh r (by simp))
    have hfresh' : ∀ r' ∈ rest,
        (t.track r.now r.path r.file r.line r.col).holds r'.path = false := by
      intro r' hr'
      rcases hh : (t.track r.now r.path r.file r.line r.col).holds r'.path with _ | _
      · rfl
      · rcases (holds_track t r.now r.path r.file r.line r.col r'.path).mp hh with heq | hold
        · exact absurd (heq ▸ List.mem_map_of_mem TrackCall.path hr') hnd.1
        · simp [hfresh r' (List.mem_cons_of_mem r hr')] at hold
    have hrec := ih (t.track r.now r.path r.file r.line r.col) hnd.2 hfresh'
    show (trackAll (t.track r.now r.path r.file r.line r.col) rest).len
        = t.len + (r :: rest).length
    rw [hrec, hstep]
    simp only [List.length_cons]
    omega

/-- **C7**  Recording N pairwise-distinct paths into a fresh tracker
yields `len = N`; re-recording an existing path leaves `len` unchanged,
and recording a new path increases `len` by exactly 1. -/
theorem track_count (recs : List TrackCall) (hnd : (recs.map TrackCall.path).Nodup) :
    (trackAll ProvenanceTracker.new recs).len = recs.length
  ∧ ∀ (t : ProvenanceTracker) (now : Int) (p f : String) (l c : PyVal),
      (t.holds p = true → (t.track now p f l c).len = t.len)
    ∧ (t.holds p = false → (t.track now p f l c).len = t.len + 1) := by
  refine ⟨?_, fun t now p f l c => ⟨fun h => length_aset_of_mem _ p _ h,
    fun h => length_aset_of_new _ p _ h⟩⟩
  simpa [ProvenanceTracker.new, ProvenanceTracker.len] using
    trackAll_len_of_fresh recs ProvenanceTracker.new hnd (fun r _ => rfl)

/-- Witness for `track_count`: two distinct paths recorded into a fresh
tracker give `len = 2`; re-recording and fresh-recording change `len` as
stated. -/
theorem track_count_witness :
    (trackAll ProvenanceTracker.new
        [⟨1, "DEFAULT.EXPID", "/a.yml", .vInt 2, .vNone⟩,
         ⟨2, "JOBS.SIM.WALLCLOCK", "/b.yml", .vInt 23, .vInt 7⟩]).len = 2
  ∧ ∀ (t : ProvenanceTracker) (now : Int) (p f : String) (l c : PyVal),
      (t.holds p = true → (t.track now p f l c).len = t.len)
    ∧ (t.holds p = false → (t.track now p f l c).len = t.len + 1) :=
  track_count
    [⟨1, "DEFAULT.EXPID", "/a.yml", .vInt 2, .vNone⟩,
     ⟨2, "JOBS.SIM.WALLCLOCK", "/b.yml", .vInt 23, .vInt 7⟩] (by decide)

/-- **C9**  `get` on a path with no entry returns `none` (it is a total
function, hence can never raise), and after `clear` every path's `get`
returns `none`. -/
theorem get_unknown (t : ProvenanceTracker) (p q : String) :
    (t.holds p = false → t.get p = none) ∧ t.clear.get q = none :=
  ⟨fun h => aget_of_not_acontains t.provenance_map p h, rfl⟩

/-- Witness for `get_unknown`: on a tracker holding only `DEFAULT.EXPID`,
`get "UNKNOWN.PARAM"` is `none`, and `get` after `clear` is `none`. -/
theorem get_unknown_witness :
    ((ProvenanceTracker.new.track 1 "DEFAULT.EXPID" "/a.yml" .vNone .vNone).get "UNKNOWN.PARAM" = none)
    ∧ (ProvenanceTracker.new.track 1 "DEFAULT.EXPID" "/a.yml" .vNone .vNone).clear.get "DEFAULT.EXPID" = none :=
  ⟨(get_unknown (ProvenanceTracker.new.track 1 "DEFAULT.EXPID" "/a.yml" .vNone .vNone)
      "UNKNOWN.PARAM" "DEFAULT.EXPID").1 rfl,
   (get_unknown (ProvenanceTracker.new.track 1 "DEFAULT.EXPID" "/a.yml" .vNone .vNone)
      "UNKNOWN.PARAM" "DEFAULT.EXPID").2⟩

/-! ## Claim theorems: export collisions (C1) and the round-trip
counterexample (C2) -/

/-- **C1**  The claimed "skip silently on collision" policy does not hold:
the collision test (`not isinstance(current[key], dict)`) can never fire,
because every value stored in the export tree — intermediate node or
serialized leaf — is itself a dict.  Recording `"A"` then `"A.B"` makes
the export walk *into* the leaf mapping of `"A"` and merge `"A.B"`'s leaf
into it; recording `"A.B"` then `"A"` makes the export overwrite the
whole `"A"` subtree with `"A"`'s leaf. -/
theorem export_collision_merges_and_overwrites :
    (((ProvenanceTracker.new.track 1 "A" "/a.yml" .vNone .vNone).track 2
          "A.B" "/b.yml" .vNone .vNone).export_to_dict
        = [("A", .vDict [("file", .vStr "/a.yml"), ("timestamp", .vFloat 1),
                         ("B", .vDict [("file", .vStr "/b.yml"), ("timestamp", .vFloat 2)])])])
  ∧ (((ProvenanceTracker.new.track 1 "A.B" "/b.yml" .vNone .vNone).track 2
          "A" "/a.yml" .vNone .vNone).export_to_dict
        = [("A", .vDict [("file", .vStr "/a.yml"), ("timestamp", .vFloat 2)])]) :=
  ⟨rfl, rfl⟩

/-- **C2 (counterexample)**  Export-then-import does *not* reproduce every
`(path, entry)` pair for every index: with both `"A"` and `"A.B"`
recorded (collision in tree shape), the merged export node at `"A"`
contains the key `file`, so the import treats it as a single leaf — the
fresh index ends with one entry instead of two and has no entry at
`"A.B"`. -/
theorem roundtrip_loses_colliding_path :
    ((ProvenanceTracker.new.track 1 "A" "/a.yml" .vNone .vNone).track 2
        "A.B" "/b.yml" .vNone .vNone).len = 2
  ∧ (ProvenanceTracker.new.import_from_dict 9
        ((ProvenanceTracker.new.track 1 "A" "/a.yml" .vNone .vNone).track 2
          "A.B" "/b.yml" .vNone .vNone).export_to_dict "").len = 1
  ∧ (ProvenanceTracker.new.import_from_dict 9
        ((ProvenanceTracker.new.track 1 "A" "/a.yml" .vNone .vNone).track 2
          "A.B" "/b.yml" .vNone .vNone).export_to_dict "").get "A.B" = none := by
  have hexp : ((ProvenanceTracker.new.track 1 "A" "/a.yml" .vNone .vNone).track 2
        "A.B" "/b.yml" .vNone .vNone).export_to_dict
      = [("A", .vDict [("file", .vStr "/a.yml"), ("timestamp", .vFloat 1),
                       ("B", .vDict [("file", .vStr "/b.yml"), ("timestamp", .vFloat 2)])])] := rfl
  refine ⟨rfl, ?_, ?_⟩ <;>
    rw [ProvenanceTracker.import_from_dict, hexp] <;>
    simp [ProvenanceTracker.new, ProvenanceTracker.len, ProvenanceTracker.get,
          importDict, acontains, aget, aset, ProvEntry.from_dict, ProvEntry.init,
          pyget, pyToStr, PyVal.isNone]

/-! ## C10: import is additive -/

theorem importDict_nil (now : Int) (m : List (String × ProvEntry)) (pfx : String) :
    importDict now m [] pfx = m := by
  rw [importDict]

theorem importDict_cons_leaf (now : Int) (m : List (String × ProvEntry)) (k : String)
    (sub : PDict) (rest : PDict) (pfx : String) (e : ProvEntry)
    (hfile : acontains sub "file" = true) (hok : ProvEntry.from_dict now sub = .ok e) :
    importDict now m ((k, .vDict sub) :: rest) pfx
      = importDict now (aset m (if pfx = "" then k else pfx ++ "." ++ k) e) rest pfx := by
  rw [importDict, if_pos hfile, hok]

theorem importDict_cons_node (now : Int) (m : List (String × ProvEntry)) (k : String)
    (sub : PDict) (rest : PDict) (pfx : String)
    (hfile : acontains sub "file" = false) :
    importDict now m ((k, .vDict sub) :: rest) pfx
      = importDict now (importDict now m sub (if pfx = "" then k else pfx ++ "." ++ k)) rest pfx := by
  rw [importDict, if_neg (by simp [hfile])]

theorem importDict_cons_other (now : Int) (m : List (String × ProvEntry)) (k : String)
    (v : PyVal) (rest : PDict) (pfx : String) (hv : ∀ sub, v ≠ .vDict sub) :
    importDict now m ((k, v) :: rest) pfx = importDict now m rest pfx := by
  cases v with
  | vDict sub => exact absurd rfl (hv sub)
  | vNone => rw [importDict]; simp
  | vStr s => rw [importDict]; simp
  | vInt n => rw [importDict]; simp
  | vFloat t => rw [importDict]; simp

theorem importPaths_nil (pfx : String) : importPaths [] pfx = [] := by
  rw [importPaths]

theorem importPaths_cons_leaf (k : String) (sub : PDict) (rest : PDict) (pfx : String)
    (hfile : acontains sub "file" = true) :
    importPaths ((k, .vDict sub) :: rest) pfx
      = (if pfx = "" then k else pfx ++ "." ++ k) :: importPaths rest pfx := by
  rw [importPaths, if_pos hfile]
  rfl

theorem importPaths_cons_node (k : String) (sub : PDict) (rest : PDict) (pfx : String)
    (hfile : acontains sub "file" = false) :
    importPaths ((k, .vDict sub) :: rest) pfx
      = importPaths sub (if pfx = "" then k else pfx ++ "." ++ k) ++ importPaths rest pfx := by
  rw [importPaths, if_neg (by simp [hfile])]

theorem importPaths_cons_other (k : String) (v : PyVal) (rest : PDict) (pfx : String)
    (hv : ∀ sub, v ≠ .vDict sub) :
    importPaths ((k, v) :: rest) pfx = importPaths rest pfx := by
  cases v with
  | vDict sub => exact absurd rfl (hv sub)
  | vNone => rw [importPaths]; simp
  | vStr s => rw [importPaths]; simp
  | vInt n => rw [importPaths]; simp
  | vFloat t => rw [importPaths]; simp

theorem importDict_frame (now : Int) (p : String) :
    ∀ (m : List (String × ProvEntry)) (d : PDict) (pfx : String),
      p ∉ importPaths d pfx → aget (importDict now m d pfx) p = aget m p := by
  intro m d pfx
  induction m, d, pfx using importDict.induct now with
  | case1 m pfx => intro _; rw [importDict_nil]
  | case2 m k sub rest pfx hfile e hok ih =>
    simp only [dite_eq_ite] at ih
    intro hp
    rw [importPaths_cons_leaf k sub rest pfx hfile, List.mem_cons, not_or] at hp
    rw [importDict_cons_leaf now m k sub rest pfx e hfile hok, ih hp.2,
        aget_aset_ne _ _ _ _ hp.1]
  | case3 m k sub rest pfx hfile e herr ih =>
    intro hp
    rw [importPaths_cons_leaf k sub rest pfx hfile, List.mem_cons, not_or] at hp
    have : importDict now m ((k, .vDict sub) :: rest) pfx = importDict now m rest pfx := by
      rw [importDict, if_pos hfile, herr]
    rw [this]
    exact ih hp.2
  | case4 m k sub rest pfx hfile ih1 ih2 =>
    simp only [dite_eq_ite] at ih1 ih2
    rw [Bool.not_eq_true] at hfile
    intro hp
    rw [importPaths_cons_node k sub rest pfx hfile, List.mem_append, not_or] at hp
    rw [importDict_cons_node now m k sub rest pfx hfile, ih2 hp.2, ih1 hp.1]
  | case5 m hd rest pfx hnd ih =>
    intro hp
    obtain ⟨k, v⟩ := hd
    have hv : ∀ sub, v ≠ .vDict sub := fun sub h => hnd k sub (by rw [h])
    rw [importPaths_cons_other k v rest pfx hv] at hp
    rw [importDict_cons_other now m k v rest pfx hv]
    exact ih hp

theorem aget_aset_isSome {α : Type} (m : List (String × α)) (k q : String) (v : α)
    (h : (aget m q).isSome = true) : (aget (aset m k v) q).isSome = true := by
  by_cases hq : q = k
  · subst hq
    rw [aget_aset_self]
    rfl
  · rwa [aget_aset_ne m k q v hq]

theorem importDict_keeps (now : Int) (q : String) :
    ∀ (m : List (String × ProvEntry)) (d : PDict) (pfx : String),
      (aget m q).isSome = true → (aget (importDict now m d pfx) q).isSome = true := by
  intro m d pfx
  induction m, d, pfx using importDict.induct now with
  | case1 m pfx => intro h; rwa [importDict_nil]
  | case2 m k sub rest pfx hfile e hok ih =>
    simp only [dite_eq_ite] at ih
    intro h
    rw [importDict_cons_leaf now m k sub rest pfx e hfile hok]
    exact ih (aget_aset_isSome m _ q e h)
  | case3 m k sub rest pfx hfile e herr ih =>
    intro h
    have heq : importDict now m ((k, .vDict sub) :: rest) pfx = importDict now m rest pfx := by
      rw [importDict, if_pos hfile, herr]
    rw [heq]
    exact ih h
  | case4 m k sub rest pfx hfile ih1 ih2 =>
    simp only [dite_eq_ite] at ih1 ih2
    rw [Bool.not_eq_true] at hfile
    intro h
    rw [importDict_cons_node now m k sub rest pfx hfile]
    exact ih2 (ih1 h)
  | case5 m hd rest pfx hnd ih =>
    intro h
    obtain ⟨k, v⟩ := hd
    have hv : ∀ sub, v ≠ .vDict sub := fun sub h' => hnd k sub (by rw [h'])
    rw [importDict_cons_other now m k v rest pfx hv]
    exact ih h

/-- **C10**  `import_from_dict` is additive: into any tracker state, every
path not among the paths the import records keeps its previous entry
unchanged, and the import never removes an existing entry. -/
theorem import_additive (now : Int) (t : ProvenanceTracker) (d : PDict) (pfx p : String)
    (hp : p ∉ importPaths d pfx) :
    (t.import_from_dict now d pfx).get p = t.get p
  ∧ ∀ q e, t.get q = some e →
      ∃ e', (t.import_from_dict now d pfx).get q = some e' := by
  constructor
  · exact importDict_frame now p t.provenance_map d pfx hp
  · intro q e hq
    have hs := importDict_keeps now q t.provenance_map d pfx
      (by rw [show t.get q = aget t.provenance_map q from rfl] at hq; rw [hq]; rfl)
    exact Option.isSome_iff_exists.mp hs

/-- Witness for `import_additive`: importing a one-leaf tree at `"A"` into
a tracker holding `"X"` leaves the entry at `"X"` unchanged. -/
theorem import_additive_witness :
    ((ProvenanceTracker.new.track 1 "X" "/x.yml" .vNone .vNone).import_from_dict 9
        [("A", .vDict [("file", .vStr "/a.yml")])] "").get "X"
      = (ProvenanceTracker.new.track 1 "X" "/x.yml" .vNone .vNone).get "X" := by
  refine (import_additive 9 (ProvenanceTracker.new.track 1 "X" "/x.yml" .vNone .vNone)
    [("A", .vDict [("file", .vStr "/a.yml")])] "" "X" ?_).1
  rw [importPaths_cons_leaf "A" [("file", .vStr "/a.yml")] [] "" (by rfl), importPaths_nil]
  simp

theorem leavesS_nil : leavesS [] = [] := by
  rw [leavesS]

theorem leavesS_cons_leaf (k : String) (sub rest : PDict)
    (hfile : acontains sub "file" = true) :
    leavesS ((k, .vDict sub) :: rest) = ([k], sub) :: leavesS rest := by
  rw [leavesS, if_pos hfile]
  rfl

theorem leavesS_cons_node (k : String) (sub rest : PDict)
    (hfile : acontains sub "file" = false) :
    leavesS ((k, .vDict sub) :: rest)
      = (leavesS sub).map (fun pr => (k :: pr.1, pr.2)) ++ leavesS rest := by
  rw [leavesS, if_neg (by simp [hfile])]

theorem leavesS_cons_other (k : String) (v : PyVal) (rest : PDict)
    (hv : ∀ sub, v ≠ .vDict sub) :
    leavesS ((k, v) :: rest) = leavesS rest := by
  cases v with
  | vDict sub => exact absurd rfl (hv sub)
  | vNone => rw [leavesS]; simp
  | vStr s => rw [leavesS]; simp
  | vInt n => rw [leavesS]; simp
  | vFloat t => rw [leavesS]; simp

theorem leavesS_append (l1 l2 : PDict) :
    leavesS (l1 ++ l2) = leavesS l1 ++ leavesS l2 := by
  induction l1 with
  | nil => rw [leavesS_nil]; rfl
  | cons hd rest ih =>
    obtain ⟨k, v⟩ := hd
    cases v with
    | vDict sub =>
      rcases hfile : acontains sub "file" with _ | _
      · rw [List.cons_append, leavesS_cons_node k sub _ hfile,
            leavesS_cons_node k sub rest hfile, ih, List.append_assoc]
      · rw [List.cons_append, leavesS_cons_leaf k sub _ hfile,
            leavesS_cons_leaf k sub rest hfile, ih]
        rfl
    | vNone =>
      rw [List.cons_append, leavesS_cons_other k _ _ (by intro _ h; cases h),
          leavesS_cons_other k _ rest (by intro _ h; cases h), ih]
    | vStr s =>
      rw [List.cons_append, leavesS_cons_other k _ _ (by intro _ h; cases h),
          leavesS_cons_other k _ rest (by intro _ h; cases h), ih]
    | vInt n =>
      rw [List.cons_append, leavesS_cons_other k _ _ (by intro _ h; cases h),
          leavesS_cons_other k _ rest (by intro _ h; cases h), ih]
    | vFloat t =>
      rw [List.cons_append, leavesS_cons_other k _ _ (by intro _ h; cases h),
          leavesS_cons_other k _ rest (by intro _ h; cases h), ih]

theorem joinSegs_cons (pfx k : String) (l : List String) :
    joinSegs pfx (k :: l) = joinSegs (joinKey pfx k) l := rfl

theorem from_dict_ok_of_file (now : Int) (sub : PDict)
    (hfile : acontains sub "file" = true) :
    ProvEntry.from_dict now sub = .ok (entryOfLeaf now sub) := by
  obtain ⟨f, hf⟩ := Option.isSome_iff_exists.mp hfile
  rw [ProvEntry.from_dict, hf, entryOfLeaf, hf]
  rfl

theorem foldAset_append {α : Type} (m : List (String × α)) (l1 l2 : List (String × α)) :
    foldAset m (l1 ++ l2) = foldAset (foldAset m l1) l2 :=
  List.foldl_append _ _ _ _

theorem importDict_eq_foldAset (now : Int) :
    ∀ (m : List (String × ProvEntry)) (d : PDict) (pfx : String),
      importDict now m d pfx
        = foldAset m ((leavesS d).map (fun pr => (joinSegs pfx pr.1, entryOfLeaf now pr.2))) := by
  intro m d pfx
  induction m, d, pfx using importDict.induct now with
  | case1 m pfx => rw [importDict_nil, leavesS_nil]; rfl
  | case2 m k sub rest pfx hfile e hok ih =>
    simp only [dite_eq_ite] at ih
    rw [importDict_cons_leaf now m k sub rest pfx e hfile hok, ih,
        leavesS_cons_leaf k sub rest hfile]
    have he : e = entryOfLeaf now sub := by
      have h2 := (from_dict_ok_of_file now sub hfile).symm.trans hok
      exact ((Except.ok.injEq _ _).mp h2).symm
    subst he
    rfl
  | case3 m k sub rest pfx hfile e herr ih =>
    exact absurd ((from_dict_ok_of_file now sub hfile).symm.trans herr) (by simp)
  | case4 m k sub rest pfx hfile ih1 ih2 =>
    simp only [dite_eq_ite] at ih1 ih2
    rw [Bool.not_eq_true] at hfile
    rw [importDict_cons_node now m k sub rest pfx hfile, ih2, ih1,
        leavesS_cons_node k sub rest hfile, List.map_append, foldAset_append,
        List.map_map]
    rfl
  | case5 m hd rest pfx hnd ih =>
    obtain ⟨k, v⟩ := hd
    have hv : ∀ sub, v ≠ .vDict sub := fun sub h' => hnd k sub (by rw [h'])
    rw [importDict_cons_other now m k v rest pfx hv, leavesS_cons_other k v rest hv, ih]

theorem aget_eq_none_of_not_mem_keys {α : Type} (m : List (String × α)) (k : String)
    (h : k ∉ m.map Prod.fst) : aget m k = none := by
  induction m with
  | nil => rfl
  | cons hd rest ih =>
    obtain ⟨k', v⟩ := hd
    simp only [List.map_cons, List.mem_cons, not_or] at h
    rw [aget, if_neg (fun he => h.1 he.symm)]
    exact ih h.2

theorem foldAset_aget_none {α : Type} (l m : List (String × α)) (q : String)
    (h : aget l q = none) : aget (foldAset m l) q = aget m q := by
  induction l generalizing m with
  | nil => rfl
  | cons hd rest ih =>
    obtain ⟨k, v⟩ := hd
    rw [aget] at h
    by_cases hk : k = q
    · rw [if_pos hk] at h
      cases h
    · rw [if_neg hk] at h
      show aget (foldAset (aset m k v) rest) q = aget m q
      rw [ih (aset m k v) h, aget_aset_ne m k q v (fun he => hk he.symm)]

theorem foldAset_aget_some {α : Type} (l : List (String × α)) (q : String) (v0 : α)
    (hnd : (l.map Prod.fst).Nodup) (h : aget l q = some v0) :
    ∀ m, aget (foldAset m l) q = some v0 := by
  induction l with
  | nil => cases h
  | cons hd rest ih =>
    obtain ⟨k, v⟩ := hd
    intro m
    simp only [List.map_cons, List.nodup_cons] at hnd
    rw [aget] at h
    by_cases hk : k = q
    · rw [if_pos hk] at h
      rw [Option.some_inj] at h
      subst h
      rw [← hk]
      show aget (foldAset (aset m k v) rest) k = some v
      rw [foldAset_aget_none rest (aset m k v) k
            (aget_eq_none_of_not_mem_keys rest k hnd.1),
          aget_aset_self]
    · rw [if_neg hk] at h
      exact ih hnd.2 h (aset m k v)

theorem foldAset_length {α : Type} (l : List (String × α)) :
    ∀ m : List (String × α), (l.map Prod.fst).Nodup →
      (∀ x ∈ l.map Prod.fst, acontains m x = false) →
      (foldAset m l).length = m.length + l.length := by
  induction l with
  | nil => intro m _ _; rfl
  | cons hd rest ih =>
    obtain ⟨k, v⟩ := hd
    intro m hnd hdisj
    simp only [List.map_cons, List.nodup_cons] at hnd
    have hk : acontains m k = false := hdisj k (by simp)
    have hdisj' : ∀ x ∈ rest.map Prod.fst, acontains (aset m k v) x = false := by
      intro x hx
      rcases hc : acontains (aset m k v) x with _ | _
      · rfl
      · rcases (acontains_aset m k x v).mp hc with he | hc'
        · exact absurd (he ▸ hx) hnd.1
        · rw [hdisj x (by simp [hx])] at hc'
          cases hc'
    show (foldAset (aset m k v) rest).length = m.length + (rest.length + 1)
    rw [ih (aset m k v) hnd.2 hdisj', length_aset_of_new m k v hk]
    omega

theorem aget_perm {α : Type} (l l' : List (String × α)) (hp : l.Perm l')
    (hnd : (l.map Prod.fst).Nodup) (q : String) : aget l q = aget l' q := by
  induction hp with
  | nil => rfl
  | cons x l₁ ih =>
    obtain ⟨k, v⟩ := x
    simp only [List.map_cons, List.nodup_cons] at hnd
    rw [aget, aget, ih hnd.2]
  | swap x y l₁ =>
    obtain ⟨k1, v1⟩ := x
    obtain ⟨k2, v2⟩ := y
    simp only [List.map_cons, List.nodup_cons, List.mem_cons, not_or] at hnd
    by_cases h1 : k1 = q <;> by_cases h2 : k2 = q
    · exact absurd (h2.trans h1.symm) hnd.1.1
    · simp [aget, h1, h2]
    · simp [aget, h1, h2]
    · simp [aget, h1, h2]
  | trans h12 h23 ih1 ih2 =>
    rw [ih1 hnd]
    exact ih2 ((List.Perm.nodup_iff (List.Perm.map Prod.fst h12)).mp hnd)

theorem aset_absent {α : Type} (m : List (String × α)) (k : String) (v : α)
    (h : acontains m k = false) : aset m k v = m ++ [(k, v)] := by
  induction m with
  | nil => rfl
  | cons hd rest ih =>
    obtain ⟨k', v'⟩ := hd
    by_cases hk : k' = k
    · simp [acontains, aget, hk] at h
    · simp only [acontains, aget, hk, if_false] at h
      rw [aset, if_neg hk, List.cons_append, ih h]

theorem aget_some_decomp {α : Type} (m : List (String × α)) (k : String) (w : α)
    (h : aget m k = some w) :
    ∃ m1 m2, m = m1 ++ (k, w) :: m2 ∧ (k ∉ m1.map Prod.fst) ∧
      ∀ v, aset m k v = m1 ++ (k, v) :: m2 := by
  induction m with
  | nil => cases h
  | cons hd rest ih =>
    obtain ⟨k', v'⟩ := hd
    by_cases hk : k' = k
    · subst hk
      rw [aget, if_pos rfl] at h
      rw [Option.some_inj] at h
      subst h
      exact ⟨[], rest, rfl, by simp, fun v => by rw [aset, if_pos rfl]; rfl⟩
    · rw [aget, if_neg hk] at h
      obtain ⟨m1, m2, heq, hnm, hset⟩ := ih h
      refine ⟨(k', v') :: m1, m2, by rw [heq]; rfl, ?_, fun v => ?_⟩
      · simp only [List.map_cons, List.mem_cons, not_or]
        exact ⟨fun he => hk he.symm, hnm⟩
      · rw [aset, if_neg hk, hset v]
        rfl

theorem WFtrie.mem_goodVal {t : PDict} (hwf : WFtrie t) :
    ∀ {k : String} {v : PyVal}, (k, v) ∈ t → GoodVal v := by
  induction hwf with
  | nil => intro k v hv; cases hv
  | consLeaf hfile _ ih =>
    intro k v hv
    rcases List.mem_cons.mp hv with he | hm
    · cases he
      exact ⟨_, rfl, Or.inl hfile⟩
    · exact ih hm
  | consNode hfile hsub _ ihsub ihrest =>
    intro k v hv
    rcases List.mem_cons.mp hv with he | hm
    · cases he
      exact ⟨_, rfl, Or.inr ⟨hfile, hsub⟩⟩
    · exact ihrest hm

theorem WFtrie.append_single {t : PDict} (hwf : WFtrie t) (k : String) (v : PyVal)
    (hv : GoodVal v) : WFtrie (t ++ [(k, v)]) := by
  induction hwf with
  | nil =>
    obtain ⟨sub, rfl, hcase⟩ := hv
    rcases hcase with hleaf | ⟨hfile, hsub⟩
    · exact WFtrie.consLeaf hleaf WFtrie.nil
    · exact WFtrie.consNode hfile hsub WFtrie.nil
  | consLeaf hfile _ ihrest => exact WFtrie.consLeaf hfile ihrest
  | consNode hfile hsub _ ihsub ihrest => exact WFtrie.consNode hfile hsub ihrest

theorem WFtrie.replace {t1 t2 : PDict} {k : String} {v : PyVal}
    (hwf : WFtrie (t1 ++ (k, v) :: t2)) (v' : PyVal) (hv' : GoodVal v') :
    WFtrie (t1 ++ (k, v') :: t2) := by
  induction t1 with
  | nil =>
    obtain ⟨sub', rfl, hcase⟩ := hv'
    have hrest : WFtrie t2 := by
      cases hwf with
      | consLeaf _ h => exact h
      | consNode _ _ h => exact h
    rcases hcase with hleaf | ⟨hfile, hsub⟩
    · exact WFtrie.consLeaf hleaf hrest
    · exact WFtrie.consNode hfile hsub hrest
  | cons hd rest ih =>
    obtain ⟨k0, v0⟩ := hd
    cases hwf with
    | consLeaf hfile hrest => exact WFtrie.consLeaf hfile (ih hrest)
    | consNode hfile hsub hrest => exact WFtrie.consNode hfile hsub (ih hrest)

theorem insertSegs_single (k : String) (rest : List String) (leaf : PyVal) :
    ∃ v, insertSegs [] (k :: rest) leaf = [(k, v)] := by
  cases rest with
  | nil => exact ⟨leaf, rfl⟩
  | cons k2 r2 => exact ⟨.vDict (insertSegs [] (k2 :: r2) leaf), rfl⟩

theorem acontains_insertSegs (t : PDict) (segs : List String) (leaf : PyVal) (x : String)
    (h : acontains (insertSegs t segs leaf) x = true) :
    acontains t x = true ∨ ∃ k rest, segs = k :: rest ∧ x = k := by
  cases segs with
  | nil => exact Or.inl h
  | cons k rest =>
    cases rest with
    | nil =>
      rcases (acontains_aset t k x leaf).mp h with he | hc
      · exact Or.inr ⟨k, [], rfl, he⟩
      · exact Or.inl hc
    | cons k2 r2 =>
      have hrw : insertSegs t (k :: k2 :: r2) leaf
          = match aget t k with
            | none => aset t k (.vDict (insertSegs [] (k2 :: r2) leaf))
            | some (.vDict sub) => aset t k (.vDict (insertSegs sub (k2 :: r2) leaf))
            | some _ => t := rfl
      rw [hrw] at h
      cases hag : aget t k with
      | none =>
        rw [hag] at h
        rcases (acontains_aset t k x _).mp h with he | hc
        · exact Or.inr ⟨k, k2 :: r2, rfl, he⟩
        · exact Or.inl hc
      | some w =>
        rw [hag] at h
        cases w with
        | vDict sub =>
          rcases (acontains_aset t k x _).mp h with he | hc
          · exact Or.inr ⟨k, k2 :: r2, rfl, he⟩
          · exact Or.inl hc
        | vNone => exact Or.inl h
        | vStr s => exact Or.inl h
        | vInt n => exact Or.inl h
        | vFloat ts => exact Or.inl h

theorem aget_mem {α : Type} (m : List (String × α)) (k : String) (w : α)
    (h : aget m k = some w) : (k, w) ∈ m := by
  induction m with
  | nil => cases h
  | cons hd rest ih =>
    obtain ⟨k', v'⟩ := hd
    by_cases hk : k' = k
    · subst hk
      rw [aget, if_pos rfl, Option.some_inj] at h
      subst h
      exact List.mem_cons_self _ _
    · rw [aget, if_neg hk] at h
      exact List.mem_cons_of_mem _ (ih h)

theorem insertSegs_cons_cons (t : PDict) (k k2 : String) (r2 : List String) (leaf : PyVal) :
    insertSegs t (k :: k2 :: r2) leaf
      = match aget t k with
        | none => aset t k (.vDict (insertSegs [] (k2 :: r2) leaf))
        | some (.vDict sub) => aset t k (.vDict (insertSegs sub (k2 :: r2) leaf))
        | some _ => t := rfl

theorem insertSegs_chain (ld : PDict) (hld : acontains ld "file" = true) :
    ∀ (rest : List String) (k : String), "file" ∉ rest →
      WFtrie (insertSegs [] (k :: rest) (.vDict ld))
    ∧ leavesS (insertSegs [] (k :: rest) (.vDict ld)) = [(k :: rest, ld)] := by
  intro rest
  induction rest with
  | nil =>
    intro k _
    constructor
    · exact WFtrie.consLeaf hld WFtrie.nil
    · show leavesS [(k, .vDict ld)] = [([k], ld)]
      rw [leavesS_cons_leaf k ld [] hld, leavesS_nil]
  | cons k2 r2 ih =>
    intro k hfile
    simp only [List.mem_cons, not_or] at hfile
    obtain ⟨hwfC, hlC⟩ := ih k2 hfile.2
    obtain ⟨v, hv⟩ := insertSegs_single k2 r2 (.vDict ld)
    have hC : insertSegs [] (k :: k2 :: r2) (.vDict ld)
        = [(k, .vDict (insertSegs [] (k2 :: r2) (.vDict ld)))] := rfl
    have hnf : acontains (insertSegs [] (k2 :: r2) (.vDict ld)) "file" = false := by
      rw [hv]
      simp [acontains, aget, show k2 ≠ "file" from fun h => hfile.1 h.symm]
    rw [hC]
    refine ⟨WFtrie.consNode hnf hwfC WFtrie.nil, ?_⟩
    rw [leavesS_cons_node k _ [] hnf, hlC, leavesS_nil]
    rfl

theorem insertSegs_trie (ld : PDict) (hld : acontains ld "file" = true) :
    ∀ (segs : List String) (t : PDict),
      WFtrie t → segs ≠ [] → "file" ∉ segs.tail →
      (∀ pr ∈ leavesS t, ¬ (pr.1 <+: segs) ∧ ¬ (segs <+: pr.1)) →
      WFtrie (insertSegs t segs (.vDict ld))
    ∧ (leavesS (insertSegs t segs (.vDict ld))).Perm ((segs, ld) :: leavesS t) := by
  intro segs
  induction segs with
  | nil => intro t _ hne _ _; exact absurd rfl hne
  | cons k rest ih =>
    intro t hwf _ hfile hdisj
    cases rest with
    | nil =>
      show WFtrie (aset t k (.vDict ld))
        ∧ (leavesS (aset t k (.vDict ld))).Perm (([k], ld) :: leavesS t)
      cases hag : aget t k with
      | none =>
        have hnc : acontains t k = false := by rw [acontains, hag]; rfl
        rw [aset_absent t k _ hnc]
        refine ⟨hwf.append_single k _ ⟨ld, rfl, Or.inl hld⟩, ?_⟩
        rw [leavesS_append, leavesS_cons_leaf k ld [] hld, leavesS_nil]
        exact List.perm_append_singleton _ _
      | some w =>
        obtain ⟨sub, rfl, hcase⟩ := hwf.mem_goodVal (aget_mem t k w hag)
        obtain ⟨t1, t2, heq, hnm, hset⟩ := aget_some_decomp t k _ hag
        rcases hcase with hleaf | ⟨hnleaf, hwsub⟩
        · refine absurd (List.prefix_refl [k]) (hdisj ([k], sub) ?_).1
          rw [heq, leavesS_append, leavesS_cons_leaf k sub t2 hleaf]
          exact List.mem_append_right _ (List.mem_cons_self _ _)
        · have hsubnil : leavesS sub = [] := by
            rcases hq : leavesS sub with _ | ⟨q, qs⟩
            · rfl
            · exfalso
              refine (hdisj (k :: q.1, q.2) ?_).2 ?_
              · rw [heq, leavesS_append, leavesS_cons_node k sub t2 hnleaf]
                refine List.mem_append_right _ (List.mem_append_left _ ?_)
                rw [hq]
                exact List.mem_map_of_mem _ (List.mem_cons_self _ _)
              · rw [List.cons_prefix_cons]
                exact ⟨rfl, List.nil_prefix⟩
          rw [hset (.vDict ld)]
          constructor
          · rw [heq] at hwf
            exact hwf.replace (.vDict ld) ⟨ld, rfl, Or.inl hld⟩
          · rw [leavesS_append, leavesS_cons_leaf k ld t2 hld, heq, leavesS_append,
                leavesS_cons_node k sub t2 hnleaf, hsubnil]
            simp only [List.map_nil, List.nil_append]
            exact List.perm_middle
    | cons k2 r2 =>
      simp only [List.tail_cons, List.mem_cons, not_or] at hfile
      cases hag : aget t k with
      | none =>
        have hstep : insertSegs t (k :: k2 :: r2) (.vDict ld)
            = aset t k (.vDict (insertSegs [] (k2 :: r2) (.vDict ld))) := by
          rw [insertSegs_cons_cons, hag]
        have hnc : acontains t k = false := by rw [acontains, hag]; rfl
        obtain ⟨hwfC, hlC⟩ := insertSegs_chain ld hld r2 k2 hfile.2
        obtain ⟨v, hv⟩ := insertSegs_single k2 r2 (.vDict ld)
        have hnf : acontains (insertSegs [] (k2 :: r2) (.vDict ld)) "file" = false := by
          rw [hv]
          simp [acontains, aget, show k2 ≠ "file" from fun h => hfile.1 h.symm]
        rw [hstep, aset_absent t k _ hnc]
        constructor
        · exact hwf.append_single k _ ⟨_, rfl, Or.inr ⟨hnf, hwfC⟩⟩
        · rw [leavesS_append, leavesS_cons_node k _ [] hnf, hlC, leavesS_nil]
          simp only [List.map_cons, List.map_nil, List.append_nil]
          exact List.perm_append_singleton _ _
      | some w =>
        obtain ⟨sub, rfl, hcase⟩ := hwf.mem_goodVal (aget_mem t k w hag)
        have hstep : insertSegs t (k :: k2 :: r2) (.vDict ld)
            = aset t k (.vDict (insertSegs sub (k2 :: r2) (.vDict ld))) := by
          rw [insertSegs_cons_cons, hag]
        obtain ⟨t1, t2, heq, hnm, hset⟩ := aget_some_decomp t k _ hag
        rcases hcase with hleaf | ⟨hnleaf, hwsub⟩
        · refine absurd ?_ (hdisj ([k], sub) ?_).1
          · rw [List.cons_prefix_cons]
            exact ⟨rfl, List.nil_prefix⟩
          · rw [heq, leavesS_append, leavesS_cons_leaf k sub t2 hleaf]
            exact List.mem_append_right _ (List.mem_cons_self _ _)
        · have hmemsub : ∀ q ∈ leavesS sub, (k :: q.1, q.2) ∈ leavesS t := by
            intro q hq
            rw [heq, leavesS_append, leavesS_cons_node k sub t2 hnleaf]
            exact List.mem_append_right _
              (List.mem_append_left _ (List.mem_map_of_mem _ hq))
          have hdisj' : ∀ q ∈ leavesS sub,
              ¬ (q.1 <+: k2 :: r2) ∧ ¬ (k2 :: r2 <+: q.1) := by
            intro q hq
            have hd := hdisj (k :: q.1, q.2) (hmemsub q hq)
            constructor
            · intro hpre
              exact hd.1 (by rw [List.cons_prefix_cons]; exact ⟨rfl, hpre⟩)
            · intro hpre
              exact hd.2 (by rw [List.cons_prefix_cons]; exact ⟨rfl, hpre⟩)
          obtain ⟨hwf', hperm'⟩ := ih sub hwsub (by simp) hfile.2 hdisj'
          have hnf' : acontains (insertSegs sub (k2 :: r2) (.vDict ld)) "file" = false := by
            rcases hc : acontains (insertSegs sub (k2 :: r2) (.vDict ld)) "file" with _ | _
            · rfl
            · rcases acontains_insertSegs sub (k2 :: r2) (.vDict ld) "file" hc with h1 | hex
              · rw [hnleaf] at h1
                cases h1
              · obtain ⟨k', r', hk', hx⟩ := hex
                rw [List.cons.injEq] at hk'
                exact absurd (hx.trans hk'.1.symm).symm (by
                  intro hkk
                  exact hfile.1 hkk.symm)
          rw [hstep, hset (.vDict (insertSegs sub (k2 :: r2) (.vDict ld))), heq]
          constructor
          · rw [heq] at hwf
            exact hwf.replace _ ⟨_, rfl, Or.inr ⟨hnf', hwf'⟩⟩
          · rw [leavesS_append, leavesS_cons_node k _ t2 hnf', leavesS_append,
                leavesS_cons_node k sub t2 hnleaf]
            refine List.Perm.trans (List.Perm.append_left (leavesS t1)
              (List.Perm.append_right (leavesS t2)
                (hperm'.map (fun pr => (k :: pr.1, pr.2))))) ?_
            rw [List.map_cons, List.cons_append]
            exact List.perm_middle

theorem to_dict_aget_file (e : ProvEntry) :
    aget e.to_dict "file" = some (.vStr e.file) := by
  rcases hl : e.line.isNone with _ | _ <;> rcases hc : e.col.isNone with _ | _ <;>
    simp [ProvEntry.to_dict, hl, hc, aset, aget]

theorem acontains_to_dict_file (e : ProvEntry) :
    acontains e.to_dict "file" = true := by
  rw [acontains, to_dict_aget_file]
  rfl

theorem to_dict_pyget_line (e : ProvEntry) : pyget e.to_dict "line" = e.line := by
  rcases hl : e.line.isNone with _ | _ <;> rcases hc : e.col.isNone with _ | _ <;>
    simp [ProvEntry.to_dict, hl, hc, aset, aget, pyget] <;>
    rw [(PyVal.isNone_eq_true_iff _).mp hl]

theorem to_dict_pyget_col (e : ProvEntry) : pyget e.to_dict "col" = e.col := by
  rcases hl : e.line.isNone with _ | _ <;> rcases hc : e.col.isNone with _ | _ <;>
    simp [ProvEntry.to_dict, hl, hc, aset, aget, pyget] <;>
    rw [(PyVal.isNone_eq_true_iff _).mp hc]

theorem to_dict_pyget_ts (e : ProvEntry) : pyget e.to_dict "timestamp" = e.timestamp := by
  rcases hl : e.line.isNone with _ | _ <;> rcases hc : e.col.isNone with _ | _ <;>
    simp [ProvEntry.to_dict, hl, hc, aset, aget, pyget]

theorem entryOfLeaf_to_dict (now : Int) (e : ProvEntry) (hts : e.timestamp ≠ .vNone) :
    entryOfLeaf now e.to_dict = e := by
  rw [entryOfLeaf, to_dict_aget_file, to_dict_pyget_line, to_dict_pyget_col]
  rw [show pyget e.to_dict "timestamp" = e.timestamp from to_dict_pyget_ts e]
  rw [ProvEntry.init]
  have : e.timestamp.isNone = false := (PyVal.isNone_eq_false_iff _).mpr hts
  rw [this]
  simp [pyToStr]

theorem export_fold (m : List (String × ProvEntry)) :
    ∀ t : PDict, WFtrie t →
      (∀ pe ∈ m, pe.1.splitOn "." ≠ [] ∧ "file" ∉ (pe.1.splitOn ".").tail) →
      (∀ pe ∈ m, ∀ pr ∈ leavesS t,
        ¬ (pr.1 <+: pe.1.splitOn ".") ∧ ¬ (pe.1.splitOn "." <+: pr.1)) →
      m.Pairwise (fun a b => ¬ (a.1.splitOn "." <+: b.1.splitOn ".")
        ∧ ¬ (b.1.splitOn "." <+: a.1.splitOn ".")) →
      WFtrie (m.foldl (fun acc pe => insertSegs acc (pe.1.splitOn ".") (.vDict pe.2.to_dict)) t)
    ∧ (leavesS (m.foldl (fun acc pe => insertSegs acc (pe.1.splitOn ".") (.vDict pe.2.to_dict)) t)).Perm
        ((m.map fun pe => (pe.1.splitOn ".", pe.2.to_dict)) ++ leavesS t) := by
  induction m with
  | nil => intro t hwf _ _ _; exact ⟨hwf, by simp⟩
  | cons pe rest ih =>
    intro t hwf hseg hdisj hpw
    have hpe := hseg pe (by simp)
    obtain ⟨hins_wf, hins_perm⟩ :=
      insertSegs_trie pe.2.to_dict (acontains_to_dict_file pe.2)
        (pe.1.splitOn ".") t hwf hpe.1 hpe.2 (fun pr hpr => hdisj pe (by simp) pr hpr)
    rw [List.pairwise_cons] at hpw
    have hdisj' : ∀ pe' ∈ rest, ∀ pr ∈
        leavesS (insertSegs t (pe.1.splitOn ".") (.vDict pe.2.to_dict)),
        ¬ (pr.1 <+: pe'.1.splitOn ".") ∧ ¬ (pe'.1.splitOn "." <+: pr.1) := by
      intro pe' hpe' pr hpr
      rcases List.mem_cons.mp (hins_perm.mem_iff.mp hpr) with he | hm
      · subst he
        exact ⟨(hpw.1 pe' hpe').1, (hpw.1 pe' hpe').2⟩
      · exact hdisj pe' (List.mem_cons_of_mem pe hpe') pr hm
    obtain ⟨hw2, hp2⟩ := ih (insertSegs t (pe.1.splitOn ".") (.vDict pe.2.to_dict))
      hins_wf (fun r hr => hseg r (List.mem_cons_of_mem pe hr)) hdisj' hpw.2
    refine ⟨hw2, ?_⟩
    refine hp2.trans ?_
    refine List.Perm.trans (List.Perm.append_left _ hins_perm) ?_
    rw [List.map_cons, List.cons_append]
    exact List.perm_middle

theorem foldAset_nil_aget {α : Type} (l : List (String × α)) (q : String)
    (hnd : (l.map Prod.fst).Nodup) : aget (foldAset [] l) q = aget l q := by
  cases hLq : aget l q with
  | none => rw [foldAset_aget_none l [] q hLq]; rfl
  | some v => rw [foldAset_aget_some l q v hnd hLq []]

/-- **C2 (amended)**  For every index whose recorded entries carry a
present (non-`None`) timestamp, and whose recorded paths (i) are
recovered by dot-joining their dot-split segments (no leading-dot path
before further segments), (ii) are pairwise prefix-free as segment lists,
and (iii) contain `"file"` as a segment only in head position, exporting
with `export_to_dict` and importing the result with `import_from_dict`
into a fresh tracker reproduces every `(path, entry)` pair exactly —
file, line, col and timestamp included — and the fresh tracker's count
equals the original count. -/
theorem export_import_roundtrip (now : Int) (t : ProvenanceTracker)
    (hnd : (t.provenance_map.map Prod.fst).Nodup)
    (hjoin : ∀ p ∈ t.provenance_map.map Prod.fst, joinSegs "" (p.splitOn ".") = p)
    (hpfx : ∀ p ∈ t.provenance_map.map Prod.fst, ∀ q ∈ t.provenance_map.map Prod.fst,
      p ≠ q → ¬ ((p.splitOn ".") <+: (q.splitOn ".")))
    (hfile : ∀ p ∈ t.provenance_map.map Prod.fst, "file" ∉ (p.splitOn ".").tail)
    (hts : ∀ pe ∈ t.provenance_map, pe.2.timestamp.isNone = false) :
    (∀ q, (ProvenanceTracker.new.import_from_dict now t.export_to_dict "").get q = t.get q)
  ∧ (ProvenanceTracker.new.import_from_dict now t.export_to_dict "").len = t.len := by
  have hempty : "".splitOn "." = [""] := by decide
  have hsegne : ∀ pe ∈ t.provenance_map, pe.1.splitOn "." ≠ [] := by
    intro pe hpe h0
    have hj := hjoin pe.1 (List.mem_map_of_mem Prod.fst hpe)
    rw [h0] at hj
    have hp1 : pe.1 = "" := hj.symm.trans (rfl : joinSegs "" [] = "")
    rw [hp1, hempty] at h0
    cases h0
  have hpw : t.provenance_map.Pairwise (fun a b =>
      ¬ (a.1.splitOn "." <+: b.1.splitOn ".") ∧ ¬ (b.1.splitOn "." <+: a.1.splitOn ".")) := by
    have hnd' : t.provenance_map.Pairwise (fun a b => a.1 ≠ b.1) :=
      List.pairwise_map.mp hnd
    refine hnd'.imp_of_mem ?_
    intro a b ha hb hne
    exact ⟨hpfx a.1 (List.mem_map_of_mem Prod.fst ha) b.1 (List.mem_map_of_mem Prod.fst hb) hne,
           hpfx b.1 (List.mem_map_of_mem Prod.fst hb) a.1 (List.mem_map_of_mem Prod.fst ha)
             (Ne.symm hne)⟩
  obtain ⟨hwf, hperm⟩ := export_fold t.provenance_map [] WFtrie.nil
    (fun pe hpe => ⟨hsegne pe hpe, hfile pe.1 (List.mem_map_of_mem Prod.fst hpe)⟩)
    (fun pe _ pr hpr => by rw [leavesS_nil] at hpr; cases hpr) hpw
  rw [leavesS_nil, List.append_nil] at hperm
  have hexp : t.export_to_dict
      = t.provenance_map.foldl
          (fun acc pe => insertSegs acc (pe.1.splitOn ".") (.vDict pe.2.to_dict)) [] := rfl
  have himp : (ProvenanceTracker.new.import_from_dict now t.export_to_dict "").provenance_map
      = foldAset [] ((leavesS t.export_to_dict).map
          (fun pr => (joinSegs "" pr.1, entryOfLeaf now pr.2))) :=
    importDict_eq_foldAset now [] t.export_to_dict ""
  have hL : ((leavesS t.export_to_dict).map
        (fun pr => (joinSegs "" pr.1, entryOfLeaf now pr.2))).Perm t.provenance_map := by
    refine List.Perm.trans (List.Perm.map _ (hexp ▸ hperm)) ?_
    rw [List.map_map]
    have hcongr : t.provenance_map.map
        ((fun pr : List String × PDict => (joinSegs "" pr.1, entryOfLeaf now pr.2)) ∘
          (fun pe : String × ProvEntry => (pe.1.splitOn ".", pe.2.to_dict)))
        = t.provenance_map.map id := by
      refine List.map_congr_left ?_
      intro pe hpe
      show (joinSegs "" (pe.1.splitOn "."), entryOfLeaf now pe.2.to_dict) = pe
      rw [hjoin pe.1 (List.mem_map_of_mem Prod.fst hpe),
          entryOfLeaf_to_dict now pe.2 ((PyVal.isNone_eq_false_iff _).mp (hts pe hpe))]
    rw [hcongr, List.map_id]
  have hndL : (((leavesS t.export_to_dict).map
        (fun pr => (joinSegs "" pr.1, entryOfLeaf now pr.2))).map Prod.fst).Nodup :=
    (List.Perm.nodup_iff (List.Perm.map Prod.fst hL)).mpr hnd
  constructor
  · intro q
    show aget (ProvenanceTracker.new.import_from_dict now t.export_to_dict "").provenance_map q
        = aget t.provenance_map q
    rw [himp, foldAset_nil_aget _ q hndL]
    exact aget_perm _ _ hL hndL q
  · show (ProvenanceTracker.new.import_from_dict now t.export_to_dict "").provenance_map.length
        = t.provenance_map.length
    rw [himp, foldAset_length _ [] hndL (fun x _ => rfl)]
    simp only [List.length_nil, Nat.zero_add]
    rw [List.length_map]
    exact (hexp ▸ hperm).length_eq.trans (List.length_map _ _)

/-- Witness for `export_import_roundtrip`: the spec's end-to-end scenario
(`DEFAULT.EXPID` from `/a.yml` line 2, `JOBS.SIM.WALLCLOCK` from `/b.yml`
line 23 col 7) survives the round trip with `len = 2`. -/
theorem export_import_roundtrip_witness :
    ((ProvenanceTracker.new.import_from_dict 9
        ((ProvenanceTracker.new.track 1 "DEFAULT.EXPID" "/a.yml" (.vInt 2) .vNone).track 2
          "JOBS.SIM.WALLCLOCK" "/b.yml" (.vInt 23) (.vInt 7)).export_to_dict "").get
        "DEFAULT.EXPID"
      = ((ProvenanceTracker.new.track 1 "DEFAULT.EXPID" "/a.yml" (.vInt 2) .vNone).track 2
          "JOBS.SIM.WALLCLOCK" "/b.yml" (.vInt 23) (.vInt 7)).get "DEFAULT.EXPID")
  ∧ (ProvenanceTracker.new.import_from_dict 9
        ((ProvenanceTracker.new.track 1 "DEFAULT.EXPID" "/a.yml" (.vInt 2) .vNone).track 2
          "JOBS.SIM.WALLCLOCK" "/b.yml" (.vInt 23) (.vInt 7)).export_to_dict "").len
      = ((ProvenanceTracker.new.track 1 "DEFAULT.EXPID" "/a.yml" (.vInt 2) .vNone).track 2
          "JOBS.SIM.WALLCLOCK" "/b.yml" (.vInt 23) (.vInt 7)).len := by
  have h := export_import_roundtrip 9
    ((ProvenanceTracker.new.track 1 "DEFAULT.EXPID" "/a.yml" (.vInt 2) .vNone).track 2
      "JOBS.SIM.WALLCLOCK" "/b.yml" (.vInt 23) (.vInt 7))
    (by decide) (by decide) (by decide) (by decide) (by decide)
  exact ⟨h.1 "DEFAULT.EXPID", h.2⟩
